import Mathlib

/-!
Verification of the CTC extraction core (`app.py`).

The development embeds the two logic-bearing functions of the repository:

* `converter_string_para_float` (app.py lines 15–58): the amount normalizer
  that disambiguates `.`/`,` as decimal vs. grouping separators, and
* `extrair_dados_ctc` (app.py lines 61–103): the extractor that scans the
  document text with the pattern
  `(\d{2}/\d{4})\s+(\d{1,}(?:[.,]\d{3})*[.,]\d{2})` (line 91) and converts
  each matched amount.

Strings are embedded as `List Char`.  Python `float` values are embedded as
exact rationals `ℚ` (every amount handled here is a finite decimal literal,
so the rational semantics coincides with the intended numeric value).
Python's `ValueError` raised by `float` is embedded as an `Except` error
carrying the string that was passed to `float`.  The character classes
`\d` and `\s` are modelled over their ASCII fragment.
-/

namespace CtcApp

/-- The regex class `\d` (ASCII fragment): decimal digit. -/
def isDigito (c : Char) : Bool := '0' ≤ c && c ≤ '9'

/-- The separator class `[.,]` appearing in the amount pattern. -/
def isSep (c : Char) : Bool := c = '.' || c = ','

/-- The regex class `\s` (ASCII fragment), also the set stripped by
`str.strip()`. -/
def isSpace (c : Char) : Bool :=
  c = ' ' || c = '\t' || c = '\n' || c = '\r' || c = '\x0b' || c = '\x0c'

/-- Embedding of `valor_str.strip()` (app.py line 27). -/
def pyStrip (s : List Char) : List Char :=
  ((s.dropWhile isSpace).reverse.dropWhile isSpace).reverse

/-- Embedding of `str.rfind(c)`: index of the last occurrence of `c`,
`-1` when `c` is absent (app.py line 34). -/
def rfind (c : Char) : List Char → Int
  | [] => -1
  | a :: t => if c ∈ t then rfind c t + 1 else if a = c then 0 else -1

/-- Base-10 value of a digit string. -/
def natOfDigits (ds : List Char) : ℕ :=
  ds.foldl (fun n c => 10 * n + (c.toNat - 48)) 0

/-- Core of the decimal-literal fragment of Python `float(str)` (no sign):
integer digits, optionally a point followed by fraction digits, at least one
digit overall.  Returns `none` exactly when Python `float` would raise
`ValueError` on such input. -/
def pyFloatCore (t : List Char) : Option ℚ :=
  let ip := t.takeWhile isDigito
  let r := t.dropWhile isDigito
  if r = [] then
    if ip = [] then none else some ((natOfDigits ip : ℚ))
  else if r.head? = some '.' ∧ r.tail.all isDigito = true ∧ ¬(ip = [] ∧ r.tail = []) then
    some ((natOfDigits ip : ℚ) + (natOfDigits r.tail : ℚ) / (10 : ℚ) ^ r.tail.length)
  else none

/-- The decimal-literal fragment of Python `float(str)`: an optional sign
followed by `pyFloatCore` (`pyFloatCore [] = none`, so the empty string
fails either way).  This is the *exact* (infinitely precise) reading of the
literal; the binary64 double that CPython actually produces is this value
correctly rounded to 53 significant bits, which `roundB64` below performs
and `converter_float64` applies. -/
def pyFloat (s : List Char) : Option ℚ :=
  match s with
  | [] => none
  | a :: t =>
    if a = '-' then (pyFloatCore t).map (fun v => -v)
    else if a = '+' then pyFloatCore t
    else pyFloatCore (a :: t)

/-- Python's `ValueError` raised by `float`: it carries the string that was
passed to `float`. -/
structure PyValueError where
  arg : List Char
deriving DecidableEq

/-- A call `float(s)`: the numeric value on success, a `ValueError` carrying
`s` on failure. -/
def floatExc (s : List Char) : Except PyValueError ℚ :=
  match pyFloat s with
  | some v => .ok v
  | none => .error ⟨s⟩

/-- Embedding of `str.replace(',', '.')` on single characters. -/
def commaToDot (c : Char) : Char := if c = ',' then '.' else c

/-- Embedding of `converter_string_para_float` (app.py lines 15–58).
`replace(x, '')` is a filter and `replace(',', '.')` is a map since all the
arguments are single characters. -/
def converter_string_para_float (valor_str : List Char) : Except PyValueError ℚ :=
  let s := pyStrip valor_str
  if ',' ∈ s ∧ '.' ∈ s then
    if rfind '.' s > rfind ',' s then
      floatExc (s.filter (fun c => c != ','))
    else
      floatExc ((s.filter (fun c => c != '.')).map commaToDot)
  else if ',' ∈ s then
    floatExc ((s.filter (fun c => c != '.')).map commaToDot)
  else if '.' ∈ s then
    floatExc s
  else
    floatExc s

/-- The cleaned string that `converter_string_para_float` passes to `float`,
branch by branch (the identity on the stripped input when no separator
cleaning happens). -/
def normalizado (valor_str : List Char) : List Char :=
  let s := pyStrip valor_str
  if ',' ∈ s ∧ '.' ∈ s then
    if rfind '.' s > rfind ',' s then s.filter (fun c => c != ',')
    else (s.filter (fun c => c != '.')).map commaToDot
  else if ',' ∈ s then (s.filter (fun c => c != '.')).map commaToDot
  else s

/-- Full (anchored) match of the tail `(?:[.,]\d{3})*[.,]\d{2}` of the
amount pattern: zero or more grouping groups, then a separator and exactly
two digits.  The decomposition is unique because a group takes four
characters and the final part three. -/
def amtTail : List Char → Bool
  | [c, d1, d2] => isSep c && isDigito d1 && isDigito d2
  | c :: d1 :: d2 :: d3 :: e :: T =>
      isSep c && isDigito d1 && isDigito d2 && isDigito d3 && amtTail (e :: T)
  | _ => false

/-- Full (anchored) match of the amount pattern
`\d{1,}(?:[.,]\d{3})*[.,]\d{2}` from app.py line 91: one or more digits,
then zero or more groups of a separator and three digits, then a separator
and exactly two digits.  The leading digit run is necessarily the maximal
one since a separator is not a digit. -/
def amountPat (s : List Char) : Bool :=
  !(s.takeWhile isDigito).isEmpty && amtTail (s.dropWhile isDigito)

/-- Matcher for `[.,]\d{2}` at the start of the input, returning the
consumed characters and the rest. -/
def tryFinal : List Char → Option (List Char × List Char)
  | c :: d1 :: d2 :: rest =>
      if isSep c && isDigito d1 && isDigito d2 then some ([c, d1, d2], rest) else none
  | _ => none

/-- Backtracking matcher for `(?:[.,]\d{3})*[.,]\d{2}` at the start of the
input, with the greedy semantics of the regex engine: prefer consuming
another three-digit group, fall back to the final two-digit part. -/
def matchTail : List Char → Option (List Char × List Char)
  | c :: d1 :: d2 :: d3 :: rest =>
      if isSep c && isDigito d1 && isDigito d2 && isDigito d3 then
        match matchTail rest with
        | some (g, r) => some (c :: d1 :: d2 :: d3 :: g, r)
        | none => tryFinal (c :: d1 :: d2 :: d3 :: rest)
      else tryFinal (c :: d1 :: d2 :: d3 :: rest)
  | t => tryFinal t

/-- Matcher for the period group `\d{2}/\d{4}` at the start of the input. -/
def matchPeriod : List Char → Option (List Char × List Char)
  | a :: b :: '/' :: c :: d :: e :: f :: rest =>
      if isDigito a && isDigito b && isDigito c && isDigito d && isDigito e && isDigito f then
        some ([a, b, '/', c, d, e, f], rest)
      else none
  | _ => none

/-- Matcher for `\s+` at the start of the input (greedy; the following token
is a digit, which is never whitespace, so maximal munch is exact). -/
def matchSpaces (t : List Char) : Option (List Char) :=
  if (t.takeWhile isSpace).isEmpty then none else some (t.dropWhile isSpace)

/-- Matcher for the amount group `\d{1,}(?:[.,]\d{3})*[.,]\d{2}` at the
start of the input (the digit run is maximal; giving digits back can never
help since the next token `[.,]` matches no digit). -/
def matchAmount (t : List Char) : Option (List Char × List Char) :=
  let ip := t.takeWhile isDigito
  if ip.isEmpty then none
  else
    match matchTail (t.dropWhile isDigito) with
    | some (g, r) => some (ip ++ g, r)
    | none => none

/-- One attempt of the compound pattern
`(\d{2}/\d{4})\s+(\d{1,}(?:[.,]\d{3})*[.,]\d{2})` anchored at the start of
the input: on success, the two captured groups and the rest of the input
after the match. -/
def scanMatch (t : List Char) : Option ((List Char × List Char) × List Char) :=
  match matchPeriod t with
  | none => none
  | some (p, r1) =>
    match matchSpaces r1 with
    | none => none
    | some r2 =>
      match matchAmount r2 with
      | none => none
      | some (a, r3) => some ((p, a), r3)

/-- Left-to-right scan of `re.findall` (app.py line 93): try the pattern at
the current position; on success emit the captured pair and continue after
the match, otherwise advance one character.  The fuel argument equals the
input length initially and never runs out before the input does, since every
step consumes at least one character. -/
def findallAux : ℕ → List Char → List (List Char × List Char)
  | 0, _ => []
  | _ + 1, [] => []
  | fuel + 1, t@(_ :: rest) =>
    match scanMatch t with
    | some (m, r) => m :: findallAux fuel r
    | none => findallAux fuel rest

/-- `re.findall(padrao, texto)` with the pattern of app.py line 91: the list
of captured `(period, raw amount)` pairs of the non-overlapping matches, in
left-to-right order of occurrence. -/
def findall (t : List Char) : List (List Char × List Char) :=
  findallAux t.length t

/-- The loop of app.py lines 98–100: convert each matched amount in order;
a conversion error aborts the whole loop (the Python exception propagates
out of `extrair_dados_ctc`). -/
def buildRecords : List (List Char × List Char) → Except PyValueError (List (List Char × ℚ))
  | [] => .ok []
  | (comp, valor) :: rest =>
    match converter_string_para_float valor with
    | .error e => .error e
    | .ok v =>
      match buildRecords rest with
      | .error e => .error e
      | .ok l => .ok ((comp, v) :: l)

/-- Embedding of `extrair_dados_ctc` (app.py lines 61–103).  The returned
DataFrame is embedded as the list of its rows `(Competência, Valor)`; a
Python exception escaping the function is the `Except.error` case. -/
def extrair_dados_ctc (texto : List Char) : Except PyValueError (List (List Char × ℚ)) :=
  buildRecords (findall texto)

/-- Round a rational to the nearest integer, ties to even — the rounding
rule of binary64 arithmetic. -/
def rndEven (x : ℚ) : ℤ :=
  if x - ⌊x⌋ = 1 / 2 then (if 2 ∣ ⌊x⌋ then ⌊x⌋ else ⌊x⌋ + 1) else round x

/-- Round a rational to 53 significant bits, to nearest with ties to even:
the exact value of the binary64 double nearest to `q`.  The exponent is
unbounded, so this is faithful to binary64 on its normal range (no
subnormals or overflow), where every amount in this development lives. -/
def roundB64 (q : ℚ) : ℚ :=
  if q = 0 then 0
  else
    (if q < 0 then (-1 : ℚ) else 1)
      * (rndEven (|q| * (2 : ℚ) ^ ((52 : ℤ) - Int.log 2 |q|)) : ℚ)
      * (2 : ℚ) ^ (Int.log 2 |q| - 52)

/-- The binary64-faithful normalizer.  CPython's `float()` is correctly
rounded: the double it returns is the binary64 value nearest to the exact
decimal value of the literal.  The source returns that double unchanged, so
the value the program produces is the exact conversion followed by one
rounding to 53 significant bits. -/
def converter_float64 (s : List Char) : Except PyValueError ℚ :=
  (converter_string_para_float s).map roundB64

/-! ### Unfolding lemmas for the `let`-bound definitions -/

theorem pyFloatCore_eq (t : List Char) :
    pyFloatCore t =
      if t.dropWhile isDigito = [] then
        if t.takeWhile isDigito = [] then none
        else some ((natOfDigits (t.takeWhile isDigito) : ℚ))
      else if (t.dropWhile isDigito).head? = some '.'
          ∧ (t.dropWhile isDigito).tail.all isDigito = true
          ∧ ¬(t.takeWhile isDigito = [] ∧ (t.dropWhile isDigito).tail = []) then
        some ((natOfDigits (t.takeWhile isDigito) : ℚ)
          + (natOfDigits ((t.dropWhile isDigito).tail) : ℚ)
              / (10 : ℚ) ^ ((t.dropWhile isDigito).tail.length))
      else none := rfl

theorem converter_eq (s : List Char) :
    converter_string_para_float s =
      if ',' ∈ pyStrip s ∧ '.' ∈ pyStrip s then
        if rfind ('.') (pyStrip s) > rfind (',') (pyStrip s) then
          floatExc ((pyStrip s).filter (fun c => c != ','))
        else floatExc (((pyStrip s).filter (fun c => c != '.')).map commaToDot)
      else if ',' ∈ pyStrip s then
        floatExc (((pyStrip s).filter (fun c => c != '.')).map commaToDot)
      else if '.' ∈ pyStrip s then floatExc (pyStrip s)
      else floatExc (pyStrip s) := rfl

theorem normalizado_eq (s : List Char) :
    normalizado s =
      if ',' ∈ pyStrip s ∧ '.' ∈ pyStrip s then
        if rfind ('.') (pyStrip s) > rfind (',') (pyStrip s) then
          (pyStrip s).filter (fun c => c != ',')
        else ((pyStrip s).filter (fun c => c != '.')).map commaToDot
      else if ',' ∈ pyStrip s then ((pyStrip s).filter (fun c => c != '.')).map commaToDot
      else pyStrip s := rfl

/-- `converter_string_para_float` is exactly one `float` call on the cleaned
string: the two trailing branches of the code pass the stripped string
unchanged. -/
theorem converter_eq_floatExc (s : List Char) :
    converter_string_para_float s = floatExc (normalizado s) := by
  rw [converter_eq, normalizado_eq]
  split_ifs <;> rfl

/-! ### Character-class facts -/

theorem sep_cases {c : Char} (h : isSep c = true) : c = '.' ∨ c = ',' := by
  simpa [isSep] using h

theorem digito_ne_dot {c : Char} (h : isDigito c = true) : c ≠ '.' := by
  rintro rfl; exact absurd h (by decide)

theorem digito_ne_comma {c : Char} (h : isDigito c = true) : c ≠ ',' := by
  rintro rfl; exact absurd h (by decide)

theorem space_not_digito {c : Char} (h : isSpace c = true) : isDigito c = false := by
  simp only [isSpace, Bool.or_eq_true, decide_eq_true_eq] at h
  rcases h with ((((rfl | rfl) | rfl) | rfl) | rfl) | rfl <;> decide

theorem digito_not_space {c : Char} (h : isDigito c = true) : isSpace c = false := by
  cases hs : isSpace c
  · rfl
  · rw [space_not_digito hs] at h; exact absurd h (by simp)

theorem sep_not_space {c : Char} (h : isSep c = true) : isSpace c = false := by
  rcases sep_cases h with rfl | rfl <;> decide

theorem sep_not_digito {c : Char} (h : isSep c = true) : isDigito c = false := by
  rcases sep_cases h with rfl | rfl <;> decide

/-! ### List helpers -/

theorem takeWhile_append_all {p : Char → Bool} {A : List Char} (B : List Char)
    (h : ∀ x ∈ A, p x = true) : (A ++ B).takeWhile p = A ++ B.takeWhile p := by
  induction A with
  | nil => simp
  | cons a A ih =>
    have ha : p a = true := h a (List.mem_cons_self a A)
    simp [List.takeWhile_cons, ha, ih (fun x hx => h x (List.mem_cons_of_mem a hx))]

theorem dropWhile_append_all {p : Char → Bool} {A : List Char} (B : List Char)
    (h : ∀ x ∈ A, p x = true) : (A ++ B).dropWhile p = B.dropWhile p := by
  induction A with
  | nil => simp
  | cons a A ih =>
    have ha : p a = true := h a (List.mem_cons_self a A)
    simp [List.dropWhile_cons, ha, ih (fun x hx => h x (List.mem_cons_of_mem a hx))]

theorem dropWhile_eq_self_of_neg {p : Char → Bool} {s : List Char}
    (h : ∀ x ∈ s, p x = false) : s.dropWhile p = s := by
  cases s with
  | nil => rfl
  | cons a t => simp [List.dropWhile_cons, h a (List.mem_cons_self a t)]

theorem pyStrip_eq_self {s : List Char} (h : ∀ x ∈ s, isSpace x = false) :
    pyStrip s = s := by
  unfold pyStrip
  rw [dropWhile_eq_self_of_neg h,
      dropWhile_eq_self_of_neg (fun x hx => h x (List.mem_reverse.mp hx)),
      List.reverse_reverse]

theorem map_eq_self_of {f : Char → Char} {s : List Char} (h : ∀ x ∈ s, f x = x) :
    s.map f = s :=
  (List.map_congr_left h).trans (List.map_id s)

/-! ### `rfind` facts -/

theorem rfind_neg {c : Char} {s : List Char} (h : c ∉ s) : rfind c s = -1 := by
  induction s with
  | nil => rfl
  | cons a t ih =>
    have h1 : c ∉ t := fun hm => h (List.mem_cons_of_mem a hm)
    have h2 : a ≠ c := fun he => h (he ▸ List.mem_cons_self a t)
    simp [rfind, h1, h2]

theorem rfind_lt_length (c : Char) (s : List Char) : rfind c s < (s.length : Int) := by
  induction s with
  | nil => simp [rfind]
  | cons a t ih =>
    simp only [rfind, List.length_cons]
    split_ifs <;> push_cast <;> omega

theorem rfind_append_of_mem {c : Char} (A : List Char) {B : List Char} (h : c ∈ B) :
    rfind c (A ++ B) = A.length + rfind c B := by
  induction A with
  | nil => simp
  | cons a A ih =>
    have hm : c ∈ A ++ B := List.mem_append_right A h
    simp only [List.cons_append, rfind, List.append_eq, List.length_cons]
    rw [if_pos hm, ih]
    push_cast; ring

theorem rfind_append_of_not_mem {c : Char} (A : List Char) {B : List Char} (h : c ∉ B) :
    rfind c (A ++ B) = rfind c A := by
  induction A with
  | nil => simp [rfind_neg h, rfind]
  | cons a A ih =>
    by_cases hc : c ∈ A
    · have hm : c ∈ A ++ B := List.mem_append_left B hc
      simp only [List.cons_append, rfind, List.append_eq]
      rw [if_pos hm, if_pos hc, ih]
    · have hm : c ∉ A ++ B := by simp [List.mem_append, hc, h]
      simp only [List.cons_append, rfind, List.append_eq]
      rw [if_neg hm, if_neg hc]

/-! ### `natOfDigits` facts -/

theorem natFold_eq (B : List Char) : ∀ n : ℕ,
    B.foldl (fun m c => 10 * m + (c.toNat - 48)) n = n * 10 ^ B.length + natOfDigits B := by
  induction B with
  | nil => intro n; simp [natOfDigits]
  | cons b B ih =>
    intro n
    simp only [List.foldl_cons, List.length_cons, natOfDigits] at ih ⊢
    rw [ih, ih (10 * 0 + (b.toNat - 48))]
    ring

theorem natOfDigits_append (A B : List Char) :
    natOfDigits (A ++ B) = natOfDigits A * 10 ^ B.length + natOfDigits B := by
  simp only [natOfDigits, List.foldl_append]
  exact natFold_eq B _

/-! ### `pyFloat` facts -/

theorem pyFloatCore_digits {A : List Char} (h1 : A ≠ [])
    (h2 : ∀ x ∈ A, isDigito x = true) :
    pyFloatCore A = some ((natOfDigits A : ℚ)) := by
  have ht : A.takeWhile isDigito = A := by
    have := takeWhile_append_all (p := isDigito) [] h2
    simpa using this
  have hd : A.dropWhile isDigito = [] := by
    have := dropWhile_append_all (p := isDigito) [] h2
    simpa using this
  rw [pyFloatCore_eq, if_pos hd, ht, if_neg h1]

theorem pyFloatCore_shape {A B : List Char} (h1 : A ≠ [])
    (h2 : ∀ x ∈ A, isDigito x = true) (h3 : ∀ x ∈ B, isDigito x = true) :
    pyFloatCore (A ++ '.' :: B)
      = some ((natOfDigits A : ℚ) + (natOfDigits B : ℚ) / (10 : ℚ) ^ B.length) := by
  have hdot : isDigito ('.') = false := by decide
  have ht : (A ++ '.' :: B).takeWhile isDigito = A := by
    rw [takeWhile_append_all _ h2]
    simp [List.takeWhile_cons, hdot]
  have hd : (A ++ '.' :: B).dropWhile isDigito = '.' :: B := by
    rw [dropWhile_append_all _ h2]
    simp [List.dropWhile_cons, hdot]
  have hcond : ((A ++ '.' :: B).dropWhile isDigito).head? = some '.'
      ∧ ((A ++ '.' :: B).dropWhile isDigito).tail.all isDigito = true
      ∧ ¬((A ++ '.' :: B).takeWhile isDigito = []
          ∧ ((A ++ '.' :: B).dropWhile isDigito).tail = []) := by
    refine ⟨by rw [hd]; rfl, ?_, ?_⟩
    · rw [hd]; simpa [List.all_eq_true] using h3
    · rw [ht]; rintro ⟨hA, -⟩; exact h1 hA
  rw [pyFloatCore_eq, if_neg (by rw [hd]; exact List.cons_ne_nil _ _), if_pos hcond, ht, hd]
  simp

theorem pyFloat_eq_core {a : Char} {t : List Char} (h : isDigito a = true) :
    pyFloat (a :: t) = pyFloatCore (a :: t) := by
  have h1 : a ≠ '-' := by rintro rfl; exact absurd h (by decide)
  have h2 : a ≠ '+' := by rintro rfl; exact absurd h (by decide)
  simp [pyFloat, h1, h2]

theorem pyFloat_shape {A B : List Char} (h1 : A ≠ [])
    (h2 : ∀ x ∈ A, isDigito x = true) (h3 : ∀ x ∈ B, isDigito x = true) :
    pyFloat (A ++ '.' :: B)
      = some ((natOfDigits A : ℚ) + (natOfDigits B : ℚ) / (10 : ℚ) ^ B.length) := by
  obtain ⟨a, A', rfl⟩ : ∃ a A', A = a :: A' := by
    cases A with
    | nil => exact absurd rfl h1
    | cons a A' => exact ⟨a, A', rfl⟩
  rw [List.cons_append, pyFloat_eq_core (h2 a (List.mem_cons_self a A')),
      ← List.cons_append, pyFloatCore_shape h1 h2 h3]

theorem pyFloat_digits {A : List Char} (h1 : A ≠ [])
    (h2 : ∀ x ∈ A, isDigito x = true) :
    pyFloat A = some ((natOfDigits A : ℚ)) := by
  obtain ⟨a, A', rfl⟩ : ∃ a A', A = a :: A' := by
    cases A with
    | nil => exact absurd rfl h1
    | cons a A' => exact ⟨a, A', rfl⟩
  rw [pyFloat_eq_core (h2 a (List.mem_cons_self a A')), pyFloatCore_digits h1 h2]

theorem pyFloatCore_none_of_two_dots {t : List Char} (h : 2 ≤ t.count ('.')) :
    pyFloatCore t = none := by
  have hip : (t.takeWhile isDigito).count ('.') = 0 := by
    rw [List.count_eq_zero]
    intro hmem
    exact absurd (List.mem_takeWhile_imp hmem) (by decide)
  have hcnt : t.count ('.')
      = (t.takeWhile isDigito).count ('.') + (t.dropWhile isDigito).count ('.') := by
    conv_lhs => rw [← List.takeWhile_append_dropWhile (p := isDigito) (l := t)]
    rw [List.count_append]
  cases hr : t.dropWhile isDigito with
  | nil =>
    rw [hr] at hcnt
    simp [hip] at hcnt
    omega
  | cons hd tl =>
    rw [pyFloatCore_eq, hr]
    rw [if_neg (List.cons_ne_nil hd tl)]
    split_ifs with hcond
    · exfalso
      obtain ⟨hh, hall, -⟩ := hcond
      have hhd : hd = '.' := by simpa using hh
      have htl0 : tl.count ('.') = 0 := by
        rw [List.count_eq_zero]
        intro hm
        have := List.all_eq_true.mp (by simpa using hall) _ hm
        exact absurd this (by decide)
      rw [hr, hhd] at hcnt
      simp [hip, List.count_cons, htl0] at hcnt
      omega
    · rfl

theorem pyFloat_none_of_two_dots {s : List Char} (h : 2 ≤ s.count ('.')) :
    pyFloat s = none := by
  cases s with
  | nil => rfl
  | cons a t =>
    have hts : t.count ('.') + (if a = '.' then 1 else 0) = (a :: t).count ('.') := by
      simp [List.count_cons]
    by_cases h1 : a = '-'
    · subst h1
      have : 2 ≤ t.count ('.') := by
        have : ('-' : Char) ≠ '.' := by decide
        simp [List.count_cons, this] at h
        omega
      simp [pyFloat, pyFloatCore_none_of_two_dots this]
    · by_cases h2 : a = '+'
      · subst h2
        have : 2 ≤ t.count ('.') := by
          have : ('+' : Char) ≠ '.' := by decide
          simp [List.count_cons, this] at h
          omega
        simp [pyFloat, h1, pyFloatCore_none_of_two_dots this]
      · simp [pyFloat, h1, h2, pyFloatCore_none_of_two_dots h]

/-! ### More small facts used by the branch analysis of the normalizer -/

theorem digito_ne_of_sep {d c : Char} (hd : isDigito d = true) (hc : isSep c = true) :
    d ≠ c := by
  rintro rfl
  rw [sep_not_digito hc] at hd
  simp at hd

theorem rfind_self_cons {c : Char} {t : List Char} (h : c ∉ t) : rfind c (c :: t) = 0 := by
  simp [rfind, h]

/-- The last occurrence of the final separator `c` in a decomposed amount is
at the position right after `I ++ J`. -/
theorem rfind_final (I J : List Char) {c d1 d2 : Char} (h1 : c ≠ d1) (h2 : c ≠ d2) :
    rfind c (I ++ (J ++ [c, d1, d2])) = ((I ++ J).length : Int) := by
  rw [← List.append_assoc,
      rfind_append_of_mem _ (List.mem_cons_self c [d1, d2]),
      rfind_self_cons (by simp [h1, h2])]
  simp

/-- Any character other than the final separator and the last two digits has
its last occurrence strictly before the final separator's. -/
theorem rfind_other (I J : List Char) {o c d1 d2 : Char} (h0 : o ≠ c) (h1 : o ≠ d1)
    (h2 : o ≠ d2) :
    rfind o (I ++ (J ++ [c, d1, d2])) < ((I ++ J).length : Int) := by
  rw [← List.append_assoc, rfind_append_of_not_mem _ (by simp [h0, h1, h2])]
  exact rfind_lt_length o (I ++ J)

theorem filter_ne_eq_self {A : List Char} {c : Char} (h : ∀ x ∈ A, x ≠ c) :
    A.filter (fun x => x != c) = A :=
  List.filter_eq_self.mpr (fun x hx => by simpa using h x hx)

theorem filter_ne_comma_eq_digits {J : List Char}
    (hJ : ∀ x ∈ J, isDigito x = true ∨ isSep x = true) (hnd : '.' ∉ J) :
    J.filter (fun x => x != ',') = J.filter isDigito := by
  refine List.filter_congr (fun x hx => ?_)
  rcases hJ x hx with hdig | hsep
  · simp [hdig, digito_ne_comma hdig]
  · rcases sep_cases hsep with rfl | rfl
    · exact absurd hx hnd
    · decide

theorem filter_ne_dot_eq_digits {J : List Char}
    (hJ : ∀ x ∈ J, isDigito x = true ∨ isSep x = true) (hnc : ',' ∉ J) :
    J.filter (fun x => x != '.') = J.filter isDigito := by
  refine List.filter_congr (fun x hx => ?_)
  rcases hJ x hx with hdig | hsep
  · simp [hdig, digito_ne_dot hdig]
  · rcases sep_cases hsep with rfl | rfl
    · decide
    · exact absurd hx hnc

theorem map_commaToDot_digits {A : List Char} (h : ∀ x ∈ A, isDigito x = true) :
    A.map commaToDot = A :=
  map_eq_self_of (fun x hx => by simp [commaToDot, digito_ne_comma (h x hx)])

theorem count_filter_ne (c : Char) (l : List Char) :
    (l.filter (fun x => x != c)).count c = 0 := by
  rw [List.count_eq_zero]
  intro hm
  have := (List.mem_filter.mp hm).2
  simp at this

theorem count_map_commaToDot (l : List Char) :
    (l.map commaToDot).count ('.') = l.count ('.') + l.count (',') := by
  induction l with
  | nil => rfl
  | cons a t ih =>
    by_cases h1 : a = ','
    · subst h1
      simp [commaToDot, List.count_cons, ih]
      omega
    · by_cases h2 : a = '.'
      · subst h2
        simp [commaToDot, List.count_cons, ih, h1]
        omega
      · simp [commaToDot, List.count_cons, ih, h1, h2]

theorem all_digits_of_no_sep {J : List Char}
    (hJ : ∀ x ∈ J, isDigito x = true ∨ isSep x = true) (hnd : '.' ∉ J)
    (hnc : ',' ∉ J) : ∀ x ∈ J, isDigito x = true := by
  intro x hx
  rcases hJ x hx with hdig | hsep
  · exact hdig
  · rcases sep_cases hsep with rfl | rfl
    · exact absurd hx hnd
    · exact absurd hx hnc

/-! ### Decomposition of pattern matches -/

/-- Any full match of `(?:[.,]\d{3})*[.,]\d{2}` splits into a digits-and-
separators part followed by the final separator and the two decimal
digits. -/
theorem amtTail_decomp : ∀ T, amtTail T = true →
    ∃ J c d1 d2, T = J ++ [c, d1, d2]
      ∧ (∀ x ∈ J, isDigito x = true ∨ isSep x = true)
      ∧ isSep c = true ∧ isDigito d1 = true ∧ isDigito d2 = true := by
  intro T h
  induction T using amtTail.induct with
  | case1 c d1 d2 =>
    simp only [amtTail, Bool.and_eq_true] at h
    exact ⟨[], c, d1, d2, rfl, by simp, h.1.1, h.1.2, h.2⟩
  | case2 c d1 d2 d3 e T ih =>
    simp only [amtTail, Bool.and_eq_true] at h
    obtain ⟨⟨⟨⟨hc, h1⟩, h2⟩, h3⟩, ht⟩ := h
    obtain ⟨J, c', e1, e2, heq, hJ, hc', he1, he2⟩ := ih ht
    refine ⟨c :: d1 :: d2 :: d3 :: J, c', e1, e2, by simp [heq], ?_, hc', he1, he2⟩
    intro x hx
    simp only [List.mem_cons] at hx
    rcases hx with rfl | rfl | rfl | rfl | hx
    · exact Or.inr hc
    · exact Or.inl h1
    · exact Or.inl h2
    · exact Or.inl h3
    · exact hJ x hx
  | case3 T h1 h2 =>
    simp [amtTail] at h

/-- Any full match of the amount pattern splits into a nonempty digit run,
a digits-and-separators middle part, and the final separator with the two
decimal digits. -/
theorem amountPat_decomp {s : List Char} (h : amountPat s = true) :
    ∃ I J c d1 d2, s = I ++ (J ++ [c, d1, d2]) ∧ I ≠ []
      ∧ (∀ x ∈ I, isDigito x = true)
      ∧ (∀ x ∈ J, isDigito x = true ∨ isSep x = true)
      ∧ isSep c = true ∧ isDigito d1 = true ∧ isDigito d2 = true := by
  simp only [amountPat, Bool.and_eq_true, Bool.not_eq_true'] at h
  obtain ⟨hne, htail⟩ := h
  obtain ⟨J, c, d1, d2, heq, hJ, hc, hd1, hd2⟩ := amtTail_decomp _ htail
  refine ⟨s.takeWhile isDigito, J, c, d1, d2, ?_, ?_, ?_, hJ, hc, hd1, hd2⟩
  · rw [← heq, List.takeWhile_append_dropWhile]
  · intro hnil
    rw [hnil] at hne
    simp at hne
  · exact fun x hx => List.mem_takeWhile_imp hx

/-! ### Branch analysis of the normalizer on decomposed pattern matches -/

/-- A `float` call cannot succeed when its parse fails. -/
theorem floatExc_none {s : List Char} (h : pyFloat s = none) :
    ∀ v : ℚ, floatExc s ≠ .ok v := by
  intro v
  simp [floatExc, h]

/-- A `float` call on a nonempty digit string, a point and two digits. -/
theorem floatExc_decomp {A : List Char} {d1 d2 : Char} (hA : A ≠ [])
    (hAdig : ∀ x ∈ A, isDigito x = true) (hd1 : isDigito d1 = true)
    (hd2 : isDigito d2 = true) :
    floatExc (A ++ '.' :: [d1, d2])
      = .ok ((natOfDigits A : ℚ) + (natOfDigits [d1, d2] : ℚ) / (10 : ℚ) ^ (2 : ℕ)) := by
  have hB : ∀ x ∈ ([d1, d2] : List Char), isDigito x = true := by
    intro x hx
    simp only [List.mem_cons, List.not_mem_nil, or_false] at hx
    rcases hx with rfl | rfl
    · exact hd1
    · exact hd2
  have h := pyFloat_shape hA hAdig hB
  rw [show ((10 : ℚ) ^ (([d1, d2] : List Char).length) = (10 : ℚ) ^ (2 : ℕ)) from rfl] at h
  unfold floatExc
  rw [h]

/-- A decomposed amount contains no whitespace, so `strip` is the
identity on it. -/
theorem strip_decomp (I J : List Char) (c d1 d2 : Char)
    (hIdig : ∀ x ∈ I, isDigito x = true)
    (hJ : ∀ x ∈ J, isDigito x = true ∨ isSep x = true)
    (hc : isSep c = true) (hd1 : isDigito d1 = true) (hd2 : isDigito d2 = true) :
    pyStrip (I ++ (J ++ [c, d1, d2])) = I ++ (J ++ [c, d1, d2]) := by
  apply pyStrip_eq_self
  intro x hx
  simp only [List.mem_append, List.mem_cons, List.not_mem_nil, or_false] at hx
  rcases hx with hx | hx | rfl | rfl | rfl
  · exact digito_not_space (hIdig x hx)
  · rcases hJ x hx with hd | hs
    · exact digito_not_space hd
    · exact sep_not_space hs
  · exact sep_not_space hc
  · exact digito_not_space hd1
  · exact digito_not_space hd2

/-- When the final separator occurs nowhere else in a decomposed amount,
`converter_string_para_float` succeeds, and its value is the digits of the
integer part plus the two decimal digits as cents.  This covers all four
branches of the code. -/
theorem conv_ok_shape (I J : List Char) (c d1 d2 : Char)
    (hI : I ≠ []) (hIdig : ∀ x ∈ I, isDigito x = true)
    (hJ : ∀ x ∈ J, isDigito x = true ∨ isSep x = true)
    (hc : isSep c = true) (hd1 : isDigito d1 = true) (hd2 : isDigito d2 = true)
    (hcount : (I ++ (J ++ [c, d1, d2])).count c = 1) :
    converter_string_para_float (I ++ (J ++ [c, d1, d2]))
      = .ok ((natOfDigits (I ++ J.filter isDigito) : ℚ)
          + (natOfDigits [d1, d2] : ℚ) / (10 : ℚ) ^ (2 : ℕ)) := by
  have hstrip := strip_decomp I J c d1 d2 hIdig hJ hc hd1 hd2
  have hAne : I ++ J.filter isDigito ≠ [] := by
    intro hnil
    exact hI (List.append_eq_nil.mp hnil).1
  have hAdig : ∀ x ∈ I ++ J.filter isDigito, isDigito x = true := by
    intro x hx
    rcases List.mem_append.mp hx with hx | hx
    · exact hIdig x hx
    · exact (List.mem_filter.mp hx).2
  have hBdig : ∀ x ∈ ([d1, d2] : List Char), isDigito x = true := by
    intro x hx
    simp only [List.mem_cons, List.not_mem_nil, or_false] at hx
    rcases hx with rfl | rfl
    · exact hd1
    · exact hd2
  have hcJ : c ∉ J := by
    have h1 : (I ++ (J ++ [c, d1, d2])).count c
        = I.count c + (J.count c + [c, d1, d2].count c) := by
      simp [List.count_append]
    have h2 : ([c, d1, d2] : List Char).count c = [d1, d2].count c + 1 :=
      List.count_cons_self c [d1, d2]
    rw [h1, h2] at hcount
    exact List.count_eq_zero.mp (by omega)
  rcases sep_cases hc with rfl | rfl
  · -- final separator is '.'
    have hdotmem : ('.' : Char) ∈ I ++ (J ++ ['.', d1, d2]) := by simp
    have hfinal := rfind_final I J (digito_ne_dot hd1).symm (digito_ne_dot hd2).symm
    by_cases hcomma : ',' ∈ I ++ (J ++ ['.', d1, d2])
    · -- both separators present, point occurs last: remove all commas
      have hlt := rfind_other I J (show (',' : Char) ≠ '.' by decide)
        (digito_ne_comma hd1).symm (digito_ne_comma hd2).symm
      rw [converter_eq, hstrip, if_pos ⟨hcomma, hdotmem⟩, if_pos (by rw [hfinal]; omega)]
      have hL : (['.', d1, d2] : List Char).filter (fun x => x != ',') = ['.', d1, d2] := by
        apply filter_ne_eq_self
        intro x hx
        simp only [List.mem_cons, List.not_mem_nil, or_false] at hx
        rcases hx with rfl | rfl | rfl
        · decide
        · exact digito_ne_comma hd1
        · exact digito_ne_comma hd2
      have hclean : (I ++ (J ++ ['.', d1, d2])).filter (fun x => x != ',')
          = (I ++ J.filter isDigito) ++ '.' :: [d1, d2] := by
        simp only [List.filter_append]
        rw [filter_ne_eq_self (fun x hx => digito_ne_comma (hIdig x hx)),
            filter_ne_comma_eq_digits hJ hcJ, hL, ← List.append_assoc]
      rw [hclean]
      exact floatExc_decomp hAne hAdig hd1 hd2
    · -- only '.' present: parse the string directly
      have hncJ : ',' ∉ J := fun hm => hcomma (by simp [hm])
      have hJdig : ∀ x ∈ J, isDigito x = true := all_digits_of_no_sep hJ hcJ hncJ
      rw [converter_eq, hstrip, if_neg (fun hcon => hcomma hcon.1), if_neg hcomma,
          if_pos hdotmem, ← List.append_assoc]
      have hABne : I ++ J ≠ [] := fun hnil => hI (List.append_eq_nil.mp hnil).1
      have hABdig : ∀ x ∈ I ++ J, isDigito x = true := by
        intro x hx
        rcases List.mem_append.mp hx with hx | hx
        · exact hIdig x hx
        · exact hJdig x hx
      rw [List.filter_eq_self.mpr hJdig]
      exact floatExc_decomp hABne hABdig hd1 hd2
  · -- final separator is ','
    have hcm : (',' : Char) ∈ I ++ (J ++ [',', d1, d2]) := by simp
    have hfinal := rfind_final I J (digito_ne_comma hd1).symm (digito_ne_comma hd2).symm
    have hJDdig : ∀ x ∈ J.filter isDigito, isDigito x = true :=
      fun x hx => (List.mem_filter.mp hx).2
    have hmap3 : ([',', d1, d2] : List Char).map commaToDot = ['.', d1, d2] := by
      simp [commaToDot, digito_ne_comma hd1, digito_ne_comma hd2]
    by_cases hdot : '.' ∈ I ++ (J ++ [',', d1, d2])
    · -- both separators present, comma occurs last: drop points, comma to point
      have hlt := rfind_other I J (show ('.' : Char) ≠ ',' by decide)
        (digito_ne_dot hd1).symm (digito_ne_dot hd2).symm
      rw [converter_eq, hstrip, if_pos ⟨hcm, hdot⟩, if_neg (by rw [hfinal]; omega)]
      have hL : ([',', d1, d2] : List Char).filter (fun x => x != '.') = [',', d1, d2] := by
        apply filter_ne_eq_self
        intro x hx
        simp only [List.mem_cons, List.not_mem_nil, or_false] at hx
        rcases hx with rfl | rfl | rfl
        · decide
        · exact digito_ne_dot hd1
        · exact digito_ne_dot hd2
      have hfilter : (I ++ (J ++ [',', d1, d2])).filter (fun x => x != '.')
          = I ++ (J.filter isDigito ++ [',', d1, d2]) := by
        simp only [List.filter_append]
        rw [filter_ne_eq_self (fun x hx => digito_ne_dot (hIdig x hx)),
            filter_ne_dot_eq_digits hJ hcJ, hL]
      have hmap : (I ++ (J.filter isDigito ++ [',', d1, d2])).map commaToDot
          = (I ++ J.filter isDigito) ++ '.' :: [d1, d2] := by
        simp only [List.map_append]
        rw [map_commaToDot_digits hIdig, map_commaToDot_digits hJDdig, hmap3,
            ← List.append_assoc]
      rw [hfilter, hmap]
      exact floatExc_decomp hAne hAdig hd1 hd2
    · -- only ',' present: comma to point
      have hndJ : '.' ∉ J := fun hm => hdot (by simp [hm])
      have hJdig : ∀ x ∈ J, isDigito x = true := all_digits_of_no_sep hJ hndJ hcJ
      rw [converter_eq, hstrip, if_neg (fun hcon => hdot hcon.2), if_pos hcm]
      have hfilter : (I ++ (J ++ [',', d1, d2])).filter (fun x => x != '.')
          = I ++ (J ++ [',', d1, d2]) :=
        filter_ne_eq_self (fun x hx he => hdot (he ▸ hx))
      have hmap : (I ++ (J ++ [',', d1, d2])).map commaToDot
          = (I ++ J) ++ '.' :: [d1, d2] := by
        simp only [List.map_append]
        rw [map_commaToDot_digits hIdig, map_commaToDot_digits hJdig, hmap3,
            ← List.append_assoc]
      rw [hfilter, hmap]
      have hABne : I ++ J ≠ [] := fun hnil => hI (List.append_eq_nil.mp hnil).1
      have hABdig : ∀ x ∈ I ++ J, isDigito x = true := by
        intro x hx
        rcases List.mem_append.mp hx with hx | hx
        · exact hIdig x hx
        · exact hJdig x hx
      rw [List.filter_eq_self.mpr hJdig]
      exact floatExc_decomp hABne hABdig hd1 hd2

/-- If the normalizer succeeds on a decomposed amount, the final separator
occurs exactly once in the string (a second occurrence would leave two
points in the cleaned string and `float` would fail). -/
theorem conv_ok_count (I J : List Char) (c d1 d2 : Char) (v : ℚ)
    (hIdig : ∀ x ∈ I, isDigito x = true)
    (hJ : ∀ x ∈ J, isDigito x = true ∨ isSep x = true)
    (hc : isSep c = true) (hd1 : isDigito d1 = true) (hd2 : isDigito d2 = true)
    (hok : converter_string_para_float (I ++ (J ++ [c, d1, d2])) = .ok v) :
    (I ++ (J ++ [c, d1, d2])).count c = 1 := by
  have hstrip := strip_decomp I J c d1 d2 hIdig hJ hc hd1 hd2
  have hcI : I.count c = 0 :=
    List.count_eq_zero.mpr (fun hm => digito_ne_of_sep (hIdig c hm) hc rfl)
  have hcD : ([d1, d2] : List Char).count c = 0 := by
    rw [List.count_eq_zero]
    intro hm
    simp only [List.mem_cons, List.not_mem_nil, or_false] at hm
    rcases hm with rfl | rfl
    · exact digito_ne_of_sep hd1 hc rfl
    · exact digito_ne_of_sep hd2 hc rfl
  suffices hcJ : J.count c = 0 by
    rw [List.count_append, List.count_append, hcI, hcJ, List.count_cons_self, hcD]
  rcases sep_cases hc with rfl | rfl
  · -- c = '.'
    by_contra hne
    have hmemJ : ('.' : Char) ∈ J := by
      rcases Nat.eq_zero_or_pos (J.count ('.')) with h0 | hpos
      · exact absurd h0 hne
      · exact List.count_pos_iff.mp hpos
    have hdotmem : ('.' : Char) ∈ I ++ (J ++ ['.', d1, d2]) := by simp
    have hfinal := rfind_final I J (digito_ne_dot hd1).symm (digito_ne_dot hd2).symm
    by_cases hcomma : ',' ∈ I ++ (J ++ ['.', d1, d2])
    · have hlt := rfind_other I J (show (',' : Char) ≠ '.' by decide)
        (digito_ne_comma hd1).symm (digito_ne_comma hd2).symm
      rw [converter_eq, hstrip, if_pos ⟨hcomma, hdotmem⟩,
        if_pos (by rw [hfinal]; omega)] at hok
      have h2 : 2 ≤ ((I ++ (J ++ ['.', d1, d2])).filter (fun x => x != ',')).count ('.') := by
        have hmm : ('.' : Char) ∈ J.filter (fun x => x != ',') :=
          List.mem_filter.mpr ⟨hmemJ, by decide⟩
        have hpos : 0 < (J.filter (fun x => x != ',')).count ('.') :=
          List.count_pos_iff.mpr hmm
        have hL : 0 < ((['.', d1, d2] : List Char).filter (fun x => x != ',')).count ('.') := by
          rw [List.filter_cons_of_pos (by decide), List.count_cons_self]
          omega
        simp only [List.filter_append, List.count_append]
        omega
      exact floatExc_none (pyFloat_none_of_two_dots h2) v hok
    · rw [converter_eq, hstrip, if_neg (fun hcon => hcomma hcon.1), if_neg hcomma,
        if_pos hdotmem] at hok
      have h2 : 2 ≤ (I ++ (J ++ ['.', d1, d2])).count ('.') := by
        have hpos : 0 < J.count ('.') := List.count_pos_iff.mpr hmemJ
        have hfin : ('.' :: [d1, d2] : List Char).count ('.') = [d1, d2].count ('.') + 1 :=
          List.count_cons_self '.' [d1, d2]
        simp only [List.count_append]
        omega
      exact floatExc_none (pyFloat_none_of_two_dots h2) v hok
  · -- c = ','
    by_contra hne
    have hmemJ : (',' : Char) ∈ J := by
      rcases Nat.eq_zero_or_pos (J.count (',')) with h0 | hpos
      · exact absurd h0 hne
      · exact List.count_pos_iff.mp hpos
    have hcm : (',' : Char) ∈ I ++ (J ++ [',', d1, d2]) := by simp
    have hfinal := rfind_final I J (digito_ne_comma hd1).symm (digito_ne_comma hd2).symm
    have hK : 2 ≤ (((I ++ (J ++ [',', d1, d2])).filter (fun x => x != '.')).map
        commaToDot).count ('.') := by
      rw [count_map_commaToDot, count_filter_ne]
      have hmm : (',' : Char) ∈ J.filter (fun x => x != '.') :=
        List.mem_filter.mpr ⟨hmemJ, by decide⟩
      have hpos : 0 < (J.filter (fun x => x != '.')).count (',') :=
        List.count_pos_iff.mpr hmm
      have hL : 0 < (([',', d1, d2] : List Char).filter (fun x => x != '.')).count (',') := by
        rw [List.filter_cons_of_pos (by decide), List.count_cons_self]
        omega
      simp only [List.filter_append, List.count_append]
      omega
    by_cases hdot : '.' ∈ I ++ (J ++ [',', d1, d2])
    · have hlt := rfind_other I J (show ('.' : Char) ≠ ',' by decide)
        (digito_ne_dot hd1).symm (digito_ne_dot hd2).symm
      rw [converter_eq, hstrip, if_pos ⟨hcm, hdot⟩, if_neg (by rw [hfinal]; omega)] at hok
      exact floatExc_none (pyFloat_none_of_two_dots hK) v hok
    · rw [converter_eq, hstrip, if_neg (fun hcon => hdot hcon.2), if_pos hcm] at hok
      exact floatExc_none (pyFloat_none_of_two_dots hK) v hok

/-- If the normalizer succeeds on a decomposed amount, its value times 100
is the number formed by the amount's digit string. -/
theorem conv_ok_value (I J : List Char) (c d1 d2 : Char) (v : ℚ)
    (hI : I ≠ []) (hIdig : ∀ x ∈ I, isDigito x = true)
    (hJ : ∀ x ∈ J, isDigito x = true ∨ isSep x = true)
    (hc : isSep c = true) (hd1 : isDigito d1 = true) (hd2 : isDigito d2 = true)
    (hok : converter_string_para_float (I ++ (J ++ [c, d1, d2])) = .ok v) :
    v * 100 = (natOfDigits ((I ++ (J ++ [c, d1, d2])).filter isDigito) : ℚ) := by
  have hcount := conv_ok_count I J c d1 d2 v hIdig hJ hc hd1 hd2 hok
  rw [conv_ok_shape I J c d1 d2 hI hIdig hJ hc hd1 hd2 hcount] at hok
  simp only [Except.ok.injEq] at hok
  have hdig : (I ++ (J ++ [c, d1, d2])).filter isDigito
      = (I ++ J.filter isDigito) ++ [d1, d2] := by
    have h3 : ([c, d1, d2] : List Char).filter isDigito = [d1, d2] := by
      rw [List.filter_cons_of_neg (by simp [sep_not_digito hc]),
          List.filter_cons_of_pos hd1, List.filter_cons_of_pos hd2]
      rfl
    simp only [List.filter_append]
    rw [List.filter_eq_self.mpr hIdig, h3, ← List.append_assoc]
  rw [hdig, ← hok]
  conv_rhs => rw [natOfDigits_append]
  rw [show (([d1, d2] : List Char).length) = 2 from rfl]
  push_cast
  have h100 : ((10 : ℚ) ^ (2 : ℕ)) = 100 := by norm_num
  rw [h100]
  field_simp

theorem digito_not_sep {c : Char} (h : isDigito c = true) : isSep c = false := by
  cases hs : isSep c
  · rfl
  · rw [sep_not_digito hs] at h; simp at h

/-! ### The extraction loop -/

/-- The conversion loop yields one record per match, in order: the periods
are copied, and each value is the successful conversion of the match's raw
amount at the same index. -/
theorem buildRecords_ok_spec : ∀ (ms : List (List Char × List Char))
    (l : List (List Char × ℚ)), buildRecords ms = .ok l →
    l.length = ms.length ∧ ∀ i (h1 : i < l.length) (h2 : i < ms.length),
      (l.get ⟨i, h1⟩).1 = (ms.get ⟨i, h2⟩).1
        ∧ converter_string_para_float ((ms.get ⟨i, h2⟩).2) = .ok ((l.get ⟨i, h1⟩).2) := by
  intro ms
  induction ms with
  | nil =>
    intro l h
    simp only [buildRecords, Except.ok.injEq] at h
    subst h
    exact ⟨rfl, fun i h1 h2 => absurd h1 (by simp at h1)⟩
  | cons m rest ih =>
    intro l h
    obtain ⟨comp, valor⟩ := m
    cases hc : converter_string_para_float valor with
    | error e =>
      simp only [buildRecords, hc] at h
      exact absurd h (by simp)
    | ok v =>
      cases hr : buildRecords rest with
      | error e =>
        simp only [buildRecords, hc, hr] at h
        exact absurd h (by simp)
      | ok l' =>
        simp only [buildRecords, hc, hr, Except.ok.injEq] at h
        subst h
        obtain ⟨hlen, hidx⟩ := ih l' hr
        refine ⟨by simp [hlen], ?_⟩
        intro i h1 h2
        cases i with
        | zero => exact ⟨rfl, hc⟩
        | succ n => exact hidx n (by simpa using h1) (by simpa using h2)

/-- The conversion loop copies the periods through verbatim, in order. -/
theorem buildRecords_map_fst : ∀ (ms : List (List Char × List Char))
    (l : List (List Char × ℚ)), buildRecords ms = .ok l →
    l.map Prod.fst = ms.map Prod.fst := by
  intro ms
  induction ms with
  | nil =>
    intro l h
    simp only [buildRecords, Except.ok.injEq] at h
    subst h
    rfl
  | cons m rest ih =>
    intro l h
    obtain ⟨comp, valor⟩ := m
    cases hc : converter_string_para_float valor with
    | error e =>
      simp only [buildRecords, hc] at h
      exact absurd h (by simp)
    | ok v =>
      cases hr : buildRecords rest with
      | error e =>
        simp only [buildRecords, hc, hr] at h
        exact absurd h (by simp)
      | ok l' =>
        simp only [buildRecords, hc, hr, Except.ok.injEq] at h
        subst h
        simp [ih l' hr]

/-- If any matched amount fails to convert, the whole loop fails. -/
theorem buildRecords_error_of_mem : ∀ (ms : List (List Char × List Char))
    (p a : List Char) (e : PyValueError), (p, a) ∈ ms →
    converter_string_para_float a = .error e →
    ∃ e2, buildRecords ms = .error e2 := by
  intro ms
  induction ms with
  | nil =>
    intro p a e hm _
    exact absurd hm (List.not_mem_nil _)
  | cons m rest ih =>
    intro p a e hm he
    obtain ⟨comp, valor⟩ := m
    cases hc : converter_string_para_float valor with
    | error e2 => exact ⟨e2, by simp [buildRecords, hc]⟩
    | ok v =>
      rcases List.mem_cons.mp hm with heq | hm2
      · simp only [Prod.mk.injEq] at heq
        obtain ⟨rfl, rfl⟩ := heq
        rw [he] at hc
        simp at hc
      · obtain ⟨e2, h2⟩ := ih p a e hm2 he
        exact ⟨e2, by simp [buildRecords, hc, h2]⟩

/-! ### Binary64 rounding facts -/

theorem abs_rndEven_sub (x : ℚ) : |(rndEven x : ℚ) - x| ≤ 1 / 2 := by
  unfold rndEven
  split_ifs with h1 h2
  · rw [abs_sub_comm, h1, abs_of_pos (by norm_num : (0 : ℚ) < 1 / 2)]
  · have hx : (((⌊x⌋ + 1 : ℤ)) : ℚ) - x = 1 / 2 := by
      push_cast
      linarith [h1]
    rw [hx, abs_of_pos (by norm_num : (0 : ℚ) < 1 / 2)]
  · rw [abs_sub_comm]
    exact abs_sub_round x

theorem roundB64_zero : roundB64 0 = 0 := rfl

/-- The binary64 rounding error is at most half an ulp: for positive `q`,
`|roundB64 q - q| ≤ 2 ^ (⌊log₂ q⌋ - 53)`. -/
theorem roundB64_error {q : ℚ} (hq : 0 < q) :
    |roundB64 q - q| ≤ (2 : ℚ) ^ (Int.log 2 q - 53) := by
  have hne : q ≠ 0 := ne_of_gt hq
  have habs : |q| = q := abs_of_pos hq
  have h2 : (2 : ℚ) ≠ 0 := by norm_num
  unfold roundB64
  rw [if_neg hne, if_neg (not_lt.mpr hq.le), habs, one_mul]
  set n := Int.log 2 q with hndef
  set m := q * (2 : ℚ) ^ ((52 : ℤ) - n) with hmdef
  have hpw : (0 : ℚ) < (2 : ℚ) ^ (n - 52) := zpow_pos (by norm_num) _
  have hm52 : m * (2 : ℚ) ^ (n - 52) = q := by
    rw [hmdef, mul_assoc, ← zpow_add₀ h2,
        show ((52 : ℤ) - n) + (n - 52) = 0 by ring, zpow_zero, mul_one]
  have key : (rndEven m : ℚ) * (2 : ℚ) ^ (n - 52) - q
      = ((rndEven m : ℚ) - m) * (2 : ℚ) ^ (n - 52) := by
    rw [← hm52]
    ring
  rw [key, abs_mul, abs_of_pos hpw]
  calc |(rndEven m : ℚ) - m| * ((2 : ℚ) ^ (n - 52))
      ≤ (1 / 2) * ((2 : ℚ) ^ (n - 52)) :=
        mul_le_mul_of_nonneg_right (abs_rndEven_sub m) hpw.le
    _ = (2 : ℚ) ^ (n - 53) := by
        rw [show (1 : ℚ) / 2 = (2 : ℚ) ^ ((-1) : ℤ) by norm_num, ← zpow_add₀ h2,
            show (-1) + (n - 52) = n - 53 by ring]

theorem round_eq_of_abs_lt {x : ℚ} {k : ℤ} (h : |x - (k : ℚ)| < 1 / 2) :
    round x = k := by
  rw [round_eq, Int.floor_eq_iff]
  rw [abs_lt] at h
  constructor
  · linarith [h.1]
  · linarith [h.2]

/-- The binary64 value of the amount `9007199254740993.21`: the exact value
`900719925474099321 / 100` lies just above `2 ^ 53`, between the doubles
`9007199254740992` and `9007199254740994`, nearer to the upper one. -/
theorem roundB64_pow53_example :
    roundB64 ((900719925474099321 : ℚ) / 100) = 9007199254740994 := by
  have hpos : (0 : ℚ) < 900719925474099321 / 100 := by norm_num
  have hne : ((900719925474099321 : ℚ) / 100) ≠ 0 := ne_of_gt hpos
  have habs : |(900719925474099321 : ℚ) / 100| = 900719925474099321 / 100 :=
    abs_of_pos hpos
  have hlog : Int.log 2 ((900719925474099321 : ℚ) / 100) = 53 := by
    have h1 : (2 : ℚ) ^ (Int.log 2 ((900719925474099321 : ℚ) / 100))
        ≤ 900719925474099321 / 100 := by
      exact_mod_cast Int.zpow_log_le_self (b := 2) (by norm_num) hpos
    have h2 : (900719925474099321 : ℚ) / 100
        < (2 : ℚ) ^ (Int.log 2 ((900719925474099321 : ℚ) / 100) + 1) := by
      exact_mod_cast Int.lt_zpow_succ_log_self (b := 2) (by norm_num)
        ((900719925474099321 : ℚ) / 100)
    set n := Int.log 2 ((900719925474099321 : ℚ) / 100) with hndef
    by_contra hne2
    rcases lt_or_gt_of_ne hne2 with hlt | hgt
    · have h4 : ((2 : ℚ) ^ (n + 1)) ≤ (2 : ℚ) ^ (53 : ℤ) :=
        zpow_le_zpow_right₀ (by norm_num) (by omega)
      have : (900719925474099321 : ℚ) / 100 < 9007199254740992 := by
        calc (900719925474099321 : ℚ) / 100 < (2 : ℚ) ^ (n + 1) := h2
          _ ≤ (2 : ℚ) ^ (53 : ℤ) := h4
          _ = 9007199254740992 := by norm_num
      norm_num at this
    · have h4 : ((2 : ℚ) ^ (54 : ℤ)) ≤ (2 : ℚ) ^ n :=
        zpow_le_zpow_right₀ (by norm_num) (by omega)
      have : (18014398509481984 : ℚ) ≤ 900719925474099321 / 100 := by
        calc (18014398509481984 : ℚ) = (2 : ℚ) ^ (54 : ℤ) := by norm_num
          _ ≤ (2 : ℚ) ^ n := h4
          _ ≤ 900719925474099321 / 100 := h1
      norm_num at this
  unfold roundB64
  rw [if_neg hne, if_neg (not_lt.mpr hpos.le), habs, hlog,
      show (900719925474099321 : ℚ) / 100 * (2 : ℚ) ^ ((52 : ℤ) - 53)
        = 900719925474099321 / 200 by norm_num]
  have hfl : ⌊(900719925474099321 : ℚ) / 200⌋ = 4503599627370496 := by
    rw [Int.floor_eq_iff]
    constructor <;> norm_num
  have hrne : rndEven ((900719925474099321 : ℚ) / 200) = 4503599627370497 := by
    unfold rndEven
    rw [hfl, if_neg (by norm_num), round_eq,
        show (900719925474099321 : ℚ) / 200 + 1 / 2 = 900719925474099421 / 200 by norm_num,
        Int.floor_eq_iff]
    constructor <;> norm_num
  rw [hrne]
  norm_num

/-! ### The claims -/

/-- **C1, counterexample.**  The claim says the normalizer returns a numeric
value, without failing, on every string matching the Extractor's amount
pattern.  It is false: `1.234.56` matches the pattern (`1`, one grouping
group `.234`, final `.56`), contains a point and no comma, so the code calls
`float` on it unchanged, and `float` fails on a string with two points. -/
theorem claim1_counterexample :
    amountPat (("1.234.56").toList) = true
      ∧ converter_string_para_float (("1.234.56").toList)
          = .error ⟨("1.234.56").toList⟩ :=
  ⟨by decide, rfl⟩

/-- **C1, amended.**  For every string matching the Extractor's amount
pattern in which the character serving as the final (decimal) separator —
the last separator occurrence in the string — occurs exactly once in the
whole string, `converter_string_para_float` returns a numeric value without
failing.  (The failing pattern matches are exactly those whose grouping
separators collide with the decimal separator.) -/
theorem claim1_amended (s : List Char) (c : Char) (hpat : amountPat s = true)
    (hlast : (s.filter isSep).getLast? = some c) (hcount : s.count c = 1) :
    ∃ v, converter_string_para_float s = .ok v := by
  obtain ⟨I, J, c', d1, d2, rfl, hI, hIdig, hJ, hc', hd1, hd2⟩ := amountPat_decomp hpat
  have hI0 : I.filter isSep = [] :=
    List.filter_eq_nil_iff.mpr (fun x hx => by simp [digito_not_sep (hIdig x hx)])
  have hc3 : ([c', d1, d2] : List Char).filter isSep = [c'] := by
    rw [List.filter_cons_of_pos hc', List.filter_cons_of_neg (by simp [digito_not_sep hd1]),
        List.filter_cons_of_neg (by simp [digito_not_sep hd2])]
    rfl
  rw [List.filter_append, List.filter_append, hI0, hc3, List.nil_append,
      List.getLast?_concat] at hlast
  obtain rfl : c = c' := (Option.some.inj hlast).symm
  exact ⟨_, conv_ok_shape I J c d1 d2 hI hIdig hJ hc' hd1 hd2 hcount⟩

/-- **C1, amended, witness** at `1.234,56` (point grouping, comma decimal,
the comma occurring once). -/
theorem claim1_amended_witness :
    ∃ v, converter_string_para_float (("1.234,56").toList) = .ok v :=
  claim1_amended (("1.234,56").toList) (',') (by decide) (by decide) (by decide)

/-- **C2.**  On a (stripped) input containing both separators, whichever of
`.`/`,` occurs last is treated as the decimal separator: if the point occurs
last the commas are removed, if the comma occurs last the points are removed
and the comma becomes the point.  In particular `1,031.87 ↦ 1031.87` and
`2.258,31 ↦ 2258.31`. -/
theorem claim2 :
    (∀ s : List Char, ',' ∈ pyStrip s → '.' ∈ pyStrip s →
      (rfind ('.') (pyStrip s) > rfind (',') (pyStrip s) →
        converter_string_para_float s = floatExc ((pyStrip s).filter (fun x => x != ',')))
      ∧ (rfind (',') (pyStrip s) > rfind ('.') (pyStrip s) →
        converter_string_para_float s
          = floatExc (((pyStrip s).filter (fun x => x != '.')).map commaToDot)))
    ∧ converter_string_para_float (("1,031.87").toList) = .ok ((103187 : ℚ) / 100)
    ∧ converter_string_para_float (("2.258,31").toList) = .ok ((225831 : ℚ) / 100) := by
  refine ⟨?_, ?_, ?_⟩
  · intro s h1 h2
    constructor
    · intro hgt
      rw [converter_eq, if_pos ⟨h1, h2⟩, if_pos hgt]
    · intro hgt
      rw [converter_eq, if_pos ⟨h1, h2⟩, if_neg (by omega)]
  · rw [show converter_string_para_float (("1,031.87").toList)
        = .ok ((natOfDigits (['1', '0', '3', '1']) : ℚ)
            + (natOfDigits (['8', '7']) : ℚ) / (10 : ℚ) ^ (2 : ℕ)) from rfl,
        show natOfDigits (['1', '0', '3', '1']) = 1031 from rfl,
        show natOfDigits (['8', '7']) = 87 from rfl]
    norm_num
  · rw [show converter_string_para_float (("2.258,31").toList)
        = .ok ((natOfDigits (['2', '2', '5', '8']) : ℚ)
            + (natOfDigits (['3', '1']) : ℚ) / (10 : ℚ) ^ (2 : ℕ)) from rfl,
        show natOfDigits (['2', '2', '5', '8']) = 2258 from rfl,
        show natOfDigits (['3', '1']) = 31 from rfl]
    norm_num

/-- **C2, witness** at `1,031.87`: the point occurs last, so the conversion
is the `float` of the string with commas removed. -/
theorem claim2_witness :
    converter_string_para_float (("1,031.87").toList)
      = floatExc ((pyStrip (("1,031.87").toList)).filter (fun x => x != ',')) :=
  (claim2.1 (("1,031.87").toList) (by decide) (by decide)).1 (by decide)

/-- **C3, counterexample.**  The claim says that for *every* well-formed
amount the returned value times 100, rounded, equals the amount's digit
string.  The program returns binary64 doubles, and for `9007199254740993.21`
the correctly-rounded double is `9007199254740994`: its cents are
`900719925474099400`, not the digit string `900719925474099321`. -/
theorem claim3_counterexample :
    amountPat (("9007199254740993.21").toList) = true
      ∧ converter_float64 (("9007199254740993.21").toList)
          = .ok ((9007199254740994 : ℚ))
      ∧ (9007199254740994 : ℚ) * 100
          ≠ (natOfDigits ((("9007199254740993.21").toList).filter isDigito) : ℚ)
      ∧ round ((9007199254740994 : ℚ) * 100)
          ≠ (natOfDigits ((("9007199254740993.21").toList).filter isDigito) : ℤ) := by
  have hd : natOfDigits ((("9007199254740993.21").toList).filter isDigito)
      = 900719925474099321 := rfl
  refine ⟨by decide, ?_, ?_, ?_⟩
  · rw [show converter_float64 (("9007199254740993.21").toList)
        = .ok (roundB64 ((natOfDigits (("9007199254740993").toList) : ℚ)
            + (natOfDigits (['2', '1']) : ℚ) / (10 : ℚ) ^ (2 : ℕ))) from rfl,
        show ((natOfDigits (("9007199254740993").toList) : ℚ)
            + (natOfDigits (['2', '1']) : ℚ) / (10 : ℚ) ^ (2 : ℕ))
          = (900719925474099321 : ℚ) / 100 by
          rw [show natOfDigits (("9007199254740993").toList) = 9007199254740993 from rfl,
              show natOfDigits (['2', '1']) = 21 from rfl]
          norm_num,
        roundB64_pow53_example]
  · rw [hd]
    norm_num
  · rw [hd, show (9007199254740994 : ℚ) * 100 = ((900719925474099400 : ℤ) : ℚ) by norm_num,
        round_intCast]
    norm_num

/-- **C3, amended.**  For every well-formed amount whose digit string, read
as an integer, is at most `2 ^ 52`, the binary64 value returned by the
normalizer, multiplied by 100 and rounded, equals that integer — within
that range normalization neither loses nor invents fractional precision.
(Beyond roughly `2 ^ 53` cents, binary64 rounding breaks the postcondition,
as the counterexample shows.) -/
theorem claim3_amended (s : List Char) (v : ℚ) (hpat : amountPat s = true)
    (hok : converter_float64 s = .ok v)
    (hbound : natOfDigits (s.filter isDigito) ≤ 2 ^ 52) :
    round (v * 100) = (natOfDigits (s.filter isDigito) : ℤ) := by
  obtain ⟨w, hw, rfl⟩ : ∃ w, converter_string_para_float s = .ok w ∧ v = roundB64 w := by
    unfold converter_float64 at hok
    cases hconv : converter_string_para_float s with
    | error e =>
      rw [hconv] at hok
      exact absurd hok (by simp [Except.map])
    | ok w =>
      rw [hconv] at hok
      refine ⟨w, rfl, ?_⟩
      have h1 : (Except.ok (roundB64 w) : Except PyValueError ℚ) = .ok v := by
        simpa [Except.map] using hok
      exact (Except.ok.inj h1).symm
  obtain ⟨I, J, c, d1, d2, rfl, hI, hIdig, hJ, hc, hd1, hd2⟩ := amountPat_decomp hpat
  have hval := conv_ok_value I J c d1 d2 w hI hIdig hJ hc hd1 hd2 hw
  set cents := natOfDigits (((I ++ (J ++ [c, d1, d2]))).filter isDigito) with hcdef
  have hw100 : w = (cents : ℚ) / 100 := by
    field_simp
    linarith [hval]
  rcases Nat.eq_zero_or_pos cents with hz | hposc
  · rw [hz] at hw100
    norm_num at hw100
    rw [hw100, roundB64_zero, hz]
    norm_num
  · have hwpos : 0 < w := by
      rw [hw100]
      have hcq : (0 : ℚ) < (cents : ℚ) := by exact_mod_cast hposc
      positivity
    have herr := roundB64_error hwpos
    have hub : w < (2 : ℚ) ^ (46 : ℤ) := by
      rw [hw100]
      have hc1 : (cents : ℚ) ≤ (2 : ℚ) ^ (52 : ℕ) := by exact_mod_cast hbound
      rw [show ((2 : ℚ)) ^ (52 : ℕ) = 4503599627370496 by norm_num] at hc1
      rw [show ((2 : ℚ)) ^ (46 : ℤ) = 70368744177664 by norm_num]
      linarith
    have hlog : Int.log 2 w ≤ 45 := by
      have h46 : w < ((2 : ℕ) : ℚ) ^ (46 : ℤ) := by exact_mod_cast hub
      have := (Int.lt_zpow_iff_log_lt (b := 2) (by norm_num) hwpos).mp h46
      omega
    have herr2 : |roundB64 w - w| ≤ (2 : ℚ) ^ ((-8) : ℤ) :=
      le_trans herr (zpow_le_zpow_right₀ (by norm_num) (by omega))
    apply round_eq_of_abs_lt
    have heq : roundB64 w * 100 - (((cents : ℤ)) : ℚ) = (roundB64 w - w) * 100 := by
      rw [hw100]
      push_cast
      ring
    rw [heq, abs_mul, show |(100 : ℚ)| = 100 by norm_num]
    calc |roundB64 w - w| * 100 ≤ ((2 : ℚ) ^ ((-8) : ℤ)) * 100 :=
          mul_le_mul_of_nonneg_right herr2 (by norm_num)
      _ < 1 / 2 := by norm_num

/-- **C3, amended, witness** at `2.258,31`: 225831 cents is far below
`2 ^ 52`, and the rounded hundredfold of the returned double is 225831. -/
theorem claim3_amended_witness :
    amountPat (("2.258,31").toList) = true
      ∧ natOfDigits ((("2.258,31").toList).filter isDigito) ≤ 2 ^ 52
      ∧ ∃ v : ℚ, converter_float64 (("2.258,31").toList) = .ok v
          ∧ round (v * 100) = (natOfDigits ((("2.258,31").toList).filter isDigito) : ℤ) := by
  refine ⟨by decide, by decide, roundB64 ((natOfDigits (['2', '2', '5', '8']) : ℚ)
      + (natOfDigits (['3', '1']) : ℚ) / (10 : ℚ) ^ (2 : ℕ)), rfl, ?_⟩
  exact claim3_amended (("2.258,31").toList) _ (by decide) rfl (by decide)

/-- **C4, counterexample.**  The claim says a failed conversion carries the
original raw input string.  It is false: on `1,0x.2` (point occurring last)
the code first removes the commas and `float` receives — and the error
carries — the cleaned string `10x.2`, not the original. -/
theorem claim4_counterexample :
    converter_string_para_float (("1,0x.2").toList) = .error ⟨("10x.2").toList⟩
      ∧ ("10x.2").toList ≠ ("1,0x.2").toList :=
  ⟨rfl, by decide⟩

/-- **C4, amended.**  The conversion fails exactly when the normalized
(cleaned) string does not parse as a float literal, and the error carries
that cleaned intermediate string — which coincides with the original input
only when no cleaning happened. -/
theorem claim4_amended (s : List Char) (e : PyValueError) :
    converter_string_para_float s = .error e
      ↔ pyFloat (normalizado s) = none ∧ e = ⟨normalizado s⟩ := by
  rw [converter_eq_floatExc]
  unfold floatExc
  cases h : pyFloat (normalizado s) with
  | none =>
    constructor
    · intro he
      exact ⟨rfl, (Except.error.inj he).symm⟩
    · rintro ⟨-, rfl⟩
      rfl
  | some v => simp

/-- **C4, amended, witness**: direct call on `abc` fails with the error
carrying `abc` itself (no cleaning happened). -/
theorem claim4_amended_witness :
    converter_string_para_float (("abc").toList) = .error ⟨("abc").toList⟩ :=
  (claim4_amended (("abc").toList) ⟨("abc").toList⟩).mpr ⟨by decide, rfl⟩

/-- **C5.**  If the normalization of any one matched amount of a document
fails, the whole extraction for that document fails — no record list is
returned. -/
theorem claim5 (t p a : List Char) (e : PyValueError)
    (hm : (p, a) ∈ findall t)
    (he : converter_string_para_float a = .error e) :
    ∃ e2, extrair_dados_ctc t = .error e2 :=
  buildRecords_error_of_mem (findall t) p a e hm he

/-- **C5, witness**: the document `01/2020 1.234.56` has one match whose
amount fails to normalize, so the whole extraction fails. -/
theorem claim5_witness :
    ∃ e2, extrair_dados_ctc (("01/2020 1.234.56").toList) = .error e2 :=
  claim5 (("01/2020 1.234.56").toList) (("01/2020").toList) (("1.234.56").toList)
    ⟨("1.234.56").toList⟩ (by decide) rfl

/-- **C6.**  On a (stripped) input containing a comma but no point, the
normalizer performs pure decimal substitution: the point-removal step is the
identity, and the result is the `float` of the string with commas turned
into points.  Every amount `D,DD` normalizes to its digits with the last two
as cents; in particular `732,47 ↦ 732.47`. -/
theorem claim6 :
    (∀ s : List Char, ',' ∈ pyStrip s → '.' ∉ pyStrip s →
      converter_string_para_float s = floatExc ((pyStrip s).map commaToDot)
        ∧ (pyStrip s).filter (fun x => x != '.') = pyStrip s)
    ∧ (∀ (ds : List Char) (d1 d2 : Char), ds ≠ [] → (∀ x ∈ ds, isDigito x = true) →
        isDigito d1 = true → isDigito d2 = true →
        converter_string_para_float (ds ++ [',', d1, d2])
          = .ok ((natOfDigits ds : ℚ) + (natOfDigits [d1, d2] : ℚ) / (10 : ℚ) ^ (2 : ℕ)))
    ∧ converter_string_para_float (("732,47").toList) = .ok ((73247 : ℚ) / 100) := by
  refine ⟨?_, ?_, ?_⟩
  · intro s h1 h2
    have hfil : (pyStrip s).filter (fun x => x != '.') = pyStrip s :=
      filter_ne_eq_self (fun x hx he => h2 (he ▸ hx))
    refine ⟨?_, hfil⟩
    rw [converter_eq, if_neg (fun hcon => h2 hcon.2), if_pos h1, hfil]
  · intro ds d1 d2 hne hdig h1 h2
    have hds : ds.count (',') = 0 :=
      List.count_eq_zero.mpr (fun hm => digito_ne_comma (hdig _ hm) rfl)
    have hdd : ([d1, d2] : List Char).count (',') = 0 := by
      rw [List.count_eq_zero]
      intro hm
      simp only [List.mem_cons, List.not_mem_nil, or_false] at hm
      rcases hm with rfl | rfl
      · exact digito_ne_comma h1 rfl
      · exact digito_ne_comma h2 rfl
    have hcount : (ds ++ ([] ++ [',', d1, d2])).count (',') = 1 := by
      simp [List.count_append, hds, List.count_cons_self, hdd]
    have h := conv_ok_shape ds [] (',') d1 d2 hne hdig (by simp) (by decide) h1 h2 hcount
    simpa using h
  · rw [show converter_string_para_float (("732,47").toList)
        = .ok ((natOfDigits (['7', '3', '2']) : ℚ)
            + (natOfDigits (['4', '7']) : ℚ) / (10 : ℚ) ^ (2 : ℕ)) from rfl,
        show natOfDigits (['7', '3', '2']) = 732 from rfl,
        show natOfDigits (['4', '7']) = 47 from rfl]
    norm_num

/-- **C6, witness** at `732,47`, both through the general substitution rule
and through the generic `D,DD` round-trip. -/
theorem claim6_witness :
    converter_string_para_float (("732,47").toList)
        = floatExc ((pyStrip (("732,47").toList)).map commaToDot)
      ∧ converter_string_para_float ((['7', '3', '2'] : List Char) ++ [',', '4', '7'])
        = .ok ((natOfDigits (['7', '3', '2']) : ℚ)
            + (natOfDigits (['4', '7']) : ℚ) / (10 : ℚ) ^ (2 : ℕ)) :=
  ⟨(claim6.1 (("732,47").toList) (by decide) (by decide)).1,
   claim6.2.1 (['7', '3', '2']) ('4') ('7') (by decide) (by decide) (by decide) (by decide)⟩

/-- **C7.**  A document with zero matches of the compound pattern extracts
to the empty record list, with no error. -/
theorem claim7 (t : List Char) (h : findall t = []) :
    extrair_dados_ctc t = .ok [] := by
  unfold extrair_dados_ctc
  rw [h]
  rfl

/-- **C7, witness** on plain prose with no period/amount pair. -/
theorem claim7_witness :
    extrair_dados_ctc (("sem valores aqui").toList) = .ok [] :=
  claim7 (("sem valores aqui").toList) (by decide)

/-- **C8.**  A successful extraction returns exactly one record per match of
the compound pattern, in the same left-to-right order: the record at index
`i` holds the period of match `i` and the converted value of the raw amount
of match `i`. -/
theorem claim8 (t : List Char) (l : List (List Char × ℚ))
    (h : extrair_dados_ctc t = .ok l) :
    l.length = (findall t).length
      ∧ ∀ i (h1 : i < l.length) (h2 : i < (findall t).length),
        (l.get ⟨i, h1⟩).1 = ((findall t).get ⟨i, h2⟩).1
          ∧ converter_string_para_float (((findall t).get ⟨i, h2⟩).2)
              = .ok ((l.get ⟨i, h1⟩).2) :=
  buildRecords_ok_spec (findall t) l h

/-- **C8, witness** on the two-match end-to-end document of the spec. -/
theorem claim8_witness :
    extrair_dados_ctc (("01/2020 732,47\n02/2020 2.258,31").toList)
        = .ok [(("01/2020").toList, (natOfDigits (['7', '3', '2']) : ℚ)
                  + (natOfDigits (['4', '7']) : ℚ) / (10 : ℚ) ^ (2 : ℕ)),
               (("02/2020").toList, (natOfDigits (['2', '2', '5', '8']) : ℚ)
                  + (natOfDigits (['3', '1']) : ℚ) / (10 : ℚ) ^ (2 : ℕ))]
      ∧ (2 : ℕ) = (findall (("01/2020 732,47\n02/2020 2.258,31").toList)).length := by
  refine ⟨rfl, ?_⟩
  rw [← (claim8 (("01/2020 732,47\n02/2020 2.258,31").toList) _ rfl).1]
  rfl

/-- **C9.**  Extracted records carry the matched period substring verbatim —
never parsed or validated; in particular the out-of-range month in
`13/2020 5,00` still yields the period `13/2020`. -/
theorem claim9 :
    (∀ (t : List Char) (l : List (List Char × ℚ)), extrair_dados_ctc t = .ok l →
      l.map Prod.fst = (findall t).map Prod.fst)
    ∧ extrair_dados_ctc (("13/2020 5,00").toList)
        = .ok [(("13/2020").toList, (5 : ℚ))] := by
  constructor
  · intro t l h
    exact buildRecords_map_fst (findall t) l h
  · rw [show extrair_dados_ctc (("13/2020 5,00").toList)
        = .ok [(("13/2020").toList, (natOfDigits (['5']) : ℚ)
            + (natOfDigits (['0', '0']) : ℚ) / (10 : ℚ) ^ (2 : ℕ))] from rfl,
        show natOfDigits (['5']) = 5 from rfl,
        show natOfDigits (['0', '0']) = 0 from rfl]
    norm_num

/-- **C9, witness**: periods of the records of `13/2020 5,00` are exactly
the periods of its matches. -/
theorem claim9_witness :
    extrair_dados_ctc (("13/2020 5,00").toList)
        = .ok [(("13/2020").toList, (natOfDigits (['5']) : ℚ)
            + (natOfDigits (['0', '0']) : ℚ) / (10 : ℚ) ^ (2 : ℕ))]
      ∧ ([(("13/2020").toList, (natOfDigits (['5']) : ℚ)
            + (natOfDigits (['0', '0']) : ℚ) / (10 : ℚ) ^ (2 : ℕ))].map Prod.fst
          = (findall (("13/2020 5,00").toList)).map Prod.fst) :=
  ⟨rfl, claim9.1 (("13/2020 5,00").toList) _ rfl⟩

/-- **C10.**  When an amount in the text has a third digit after its final
separator, the match stops after two fractional digits and the rest is
dropped: `01/2020 100,123` extracts to the single record
`("01/2020", 100.12)`. -/
theorem claim10 :
    extrair_dados_ctc (("01/2020 100,123").toList)
      = .ok [(("01/2020").toList, (10012 : ℚ) / 100)] := by
  rw [show extrair_dados_ctc (("01/2020 100,123").toList)
      = .ok [(("01/2020").toList, (natOfDigits (['1', '0', '0']) : ℚ)
          + (natOfDigits (['1', '2']) : ℚ) / (10 : ℚ) ^ (2 : ℕ))] from rfl,
      show natOfDigits (['1', '0', '0']) = 100 from rfl,
      show natOfDigits (['1', '2']) = 12 from rfl]
  norm_num

end CtcApp
